import Mathlib

/-!
Verification of the ChatIA server core (iaserver.py) against its
natural-language specification.

The development shallowly embeds the knowledge-ingestion pipeline
(sentence splitting, deduplication, keyword-overlap matching), the
JSON-backed knowledge and session stores, the chat route and the upload
extension check.  Python strings are modelled as Lean strings operated
on through their character lists; the ASCII fragments of str.lower and
str.strip are modelled explicitly (the source only manipulates ASCII
sentinels, thresholds and extensions, so the ASCII fragment is the
relevant one).
-/

namespace ChatIA

/-- Boolean membership of a string in a list, modelling the Python
expression s in knowledge (list membership by string equality). -/
def memB (s : String) : List String → Bool
  | [] => false
  | k :: ks => s = k || memB s ks

theorem memB_iff_mem (s : String) : ∀ l : List String, memB s l = true ↔ s ∈ l := by
  intro l
  induction l with
  | nil => simp [memB]
  | cons k ks ih => simp [memB, ih, List.mem_cons]

theorem memB_append (s : String) (l₁ l₂ : List String) :
    memB s (l₁ ++ l₂) = (memB s l₁ || memB s l₂) := by
  induction l₁ with
  | nil => simp [memB]
  | cons k ks ih => simp [memB, ih, Bool.or_assoc]

/-- Whitespace as recognised by Python str.strip() (ASCII fragment):
space, tab, newline, carriage return, vertical tab, form feed. -/
def isPyWs (c : Char) : Bool :=
  c = ' ' || c = '\t' || c = '\n' || c = '\r' || c = Char.ofNat 11 || c = Char.ofNat 12

/-- Model of Python str.strip(): drop leading and trailing whitespace. -/
def pyStrip (s : String) : String :=
  String.mk (((s.data.dropWhile isPyWs).reverse.dropWhile isPyWs).reverse)

/-- Model of Python str.lower() on one character (ASCII fragment:
uppercase basic latin letters are shifted to lowercase). -/
def lowerChar (c : Char) : Char :=
  if 65 ≤ c.toNat ∧ c.toNat ≤ 90 then Char.ofNat (c.toNat + 32) else c

/-- Model of Python str.lower() (ASCII fragment). -/
def pyLower (s : String) : String :=
  String.mk (s.data.map lowerChar)

/-- Word characters of the regex class backslash-w (ASCII fragment):
alphanumerics and the underscore. -/
def isWordChar (c : Char) : Bool :=
  c.isAlphanum || c = '_'

/-- Maximal runs of word characters, as found by re.findall with the
word-token regex; the accumulator holds the current run reversed. -/
def tokenRuns : List Char → List Char → List String
  | [], cur => if cur = [] then [] else [String.mk cur.reverse]
  | c :: rest, cur =>
    if isWordChar c then tokenRuns rest (c :: cur)
    else if cur = [] then tokenRuns rest []
    else String.mk cur.reverse :: tokenRuns rest []

/-- Lowercase word tokens of a string, modelling
re.findall(word-token regex, s.lower()) in best_knowledge_match. -/
def wordTokens (s : String) : List String :=
  tokenRuns (pyLower s).data []

/-- Size of the intersection of the two token sets, modelling
len(user_words and sentence_words) on Python sets: the number of
distinct tokens of a that also occur in b. -/
def tokenOverlap (a b : String) : Nat :=
  ((wordTokens a).dedup.filter (fun t => memB t (wordTokens b))).length

/-- Largest overlap score any stored sentence reaches against the
utterance (0 for an empty corpus). -/
def maxOverlap (user : String) (knowledge : List String) : Nat :=
  (knowledge.map (tokenOverlap user)).foldr max 0

/-- Loop of best_knowledge_match (iaserver.py lines 121-126): fold over
the corpus keeping the best match and the best score, replacing them
only on a strictly higher overlap. -/
def bkmGo (user : String) : List String → Option String → Nat → Option String × Nat
  | [], best_match, best_score => (best_match, best_score)
  | s :: rest, best_match, best_score =>
    if best_score < tokenOverlap user s then bkmGo user rest (some s) (tokenOverlap user s)
    else bkmGo user rest best_match best_score

/-- Model of best_knowledge_match (iaserver.py lines 117-127): the best
match is returned only when the best score reaches the threshold 3. -/
def best_knowledge_match (user_input : String) (knowledge : List String) : Option String :=
  let r := bkmGo user_input knowledge none 0
  if 3 ≤ r.2 then r.1 else none

/-- Sentence terminators of the split regex: period, bang, question mark. -/
def isTerm (c : Char) : Bool :=
  c = '.' || c = '!' || c = '?'

/-- Last character already consumed into the current (reversed) segment
is a sentence terminator; this plays the role of the regex lookbehind. -/
def headIsTerm : List Char → Bool
  | p :: _ => isTerm p
  | [] => false

/-- Model of re.split on the pattern "terminator lookbehind followed by
one or more spaces" (iaserver.py line 78), as a character state machine:
a segment ends when a terminator is immediately followed by a space; the
terminator stays on the segment, and while the skipping flag is set the
remaining spaces of the greedy separator run are consumed. -/
def splitSentencesAux : List Char → Bool → List Char → List String
  | [], _, cur => [String.mk cur.reverse]
  | c :: rest, skipping, cur =>
    if skipping ∧ c = ' ' then splitSentencesAux rest true cur
    else if c = ' ' ∧ headIsTerm cur then
      String.mk cur.reverse :: splitSentencesAux rest true []
    else splitSentencesAux rest false (c :: cur)

/-- Sentence segmentation of add_to_knowledge (iaserver.py line 78). -/
def splitSentences (text : String) : List String :=
  splitSentencesAux text.data false []

/-- Qualifying sentence candidates (iaserver.py line 79): each split
segment stripped, keeping only those of stripped length above 5. -/
def sentence_candidates (text : String) : List String :=
  ((splitSentences text).map pyStrip).filter (fun s => 5 < s.length)

/-- Candidates not already present in the corpus (iaserver.py line 81);
note each occurrence is compared against the corpus only, not against
the other new candidates. -/
def new_sentences (knowledge : List String) (text : String) : List String :=
  (sentence_candidates text).filter (fun s => !(memB s knowledge))

/-- Model of add_to_knowledge (iaserver.py lines 77-84) applied to the
loaded corpus: returns the extended corpus and the count of newly
appended sentences. -/
def add_to_knowledge (knowledge : List String) (text : String) : List String × Nat :=
  (knowledge ++ new_sentences knowledge text, (new_sentences knowledge text).length)

theorem maxOverlap_nil (user : String) : maxOverlap user [] = 0 := rfl

theorem maxOverlap_cons (user s : String) (l : List String) :
    maxOverlap user (s :: l) = max (tokenOverlap user s) (maxOverlap user l) := rfl

theorem bkmGo_snd (user : String) :
    ∀ (l : List String) (bm : Option String) (bs : Nat),
      (bkmGo user l bm bs).2 = max bs (maxOverlap user l) := by
  intro l
  induction l with
  | nil => intro bm bs; simp [bkmGo, maxOverlap_nil]
  | cons s rest ih =>
    intro bm bs
    rw [maxOverlap_cons]
    by_cases h : bs < tokenOverlap user s
    · simp only [bkmGo, if_pos h, ih]
      exact (max_eq_right (le_trans (Nat.le_of_lt h) (le_max_left _ _))).symm
    · simp only [bkmGo, if_neg h, ih]
      rw [← max_assoc, max_eq_left (Nat.le_of_not_lt h)]

theorem bkmGo_fst_of_le (user : String) :
    ∀ (l : List String) (bm : Option String) (bs : Nat),
      maxOverlap user l ≤ bs → (bkmGo user l bm bs).1 = bm := by
  intro l
  induction l with
  | nil => intro bm bs _; rfl
  | cons s rest ih =>
    intro bm bs h
    rw [maxOverlap_cons] at h
    have h1 : tokenOverlap user s ≤ bs := le_trans (le_max_left _ _) h
    have h2 : maxOverlap user rest ≤ bs := le_trans (le_max_right _ _) h
    simp only [bkmGo, if_neg (Nat.not_lt.mpr h1)]
    exact ih bm bs h2

theorem bkmGo_fst_of_lt (user : String) :
    ∀ (l : List String) (bm : Option String) (bs : Nat), bs < maxOverlap user l →
      ∃ i, ∃ h : i < l.length,
        (bkmGo user l bm bs).1 = some l[i] ∧
        tokenOverlap user l[i] = maxOverlap user l ∧
        ∀ j, ∀ hj : j < i, tokenOverlap user l[j] < maxOverlap user l := by
  intro l
  induction l with
  | nil => intro bm bs h; rw [maxOverlap_nil] at h; exact absurd h (Nat.not_lt_zero bs)
  | cons s rest ih =>
    intro bm bs h
    by_cases hb : bs < tokenOverlap user s
    · by_cases hm : maxOverlap user rest ≤ tokenOverlap user s
      · have hM : maxOverlap user (s :: rest) = tokenOverlap user s := by
          rw [maxOverlap_cons]; exact max_eq_left hm
        refine ⟨0, Nat.succ_pos _, ?_, ?_, ?_⟩
        · simp only [bkmGo, if_pos hb, List.getElem_cons_zero]
          exact bkmGo_fst_of_le user rest (some s) (tokenOverlap user s) hm
        · simp only [List.getElem_cons_zero, hM]
        · intro j hj; exact absurd hj (Nat.not_lt_zero j)
      · push_neg at hm
        have hM : maxOverlap user (s :: rest) = maxOverlap user rest := by
          rw [maxOverlap_cons]; exact max_eq_right (Nat.le_of_lt hm)
        obtain ⟨i, hi, e1, e2, e3⟩ := ih (some s) (tokenOverlap user s) hm
        refine ⟨i + 1, Nat.succ_lt_succ hi, ?_, ?_, ?_⟩
        · simp only [bkmGo, if_pos hb, List.getElem_cons_succ]
          exact e1
        · simp only [List.getElem_cons_succ, hM]
          exact e2
        · intro j hj
          match j, hj with
          | 0, _ =>
            simp only [List.getElem_cons_zero, hM]
            exact hm
          | j' + 1, hj' =>
            simp only [List.getElem_cons_succ, hM]
            exact e3 j' (Nat.lt_of_succ_lt_succ hj')
    · push_neg at hb
      have hm : bs < maxOverlap user rest := by
        rw [maxOverlap_cons] at h
        by_contra hc
        push_neg at hc
        exact absurd h (Nat.not_lt.mpr (max_le hb hc))
      have hM : maxOverlap user (s :: rest) = maxOverlap user rest := by
        rw [maxOverlap_cons]; exact max_eq_right (le_trans hb (Nat.le_of_lt hm))
      obtain ⟨i, hi, e1, e2, e3⟩ := ih bm bs hm
      refine ⟨i + 1, Nat.succ_lt_succ hi, ?_, ?_, ?_⟩
      · simp only [bkmGo, if_neg (Nat.not_lt.mpr hb)]
        exact e1
      · simp only [List.getElem_cons_succ, hM]
        exact e2
      · intro j hj
        match j, hj with
        | 0, _ =>
          simp only [List.getElem_cons_zero, hM]
          exact Nat.lt_of_le_of_lt hb hm
        | j' + 1, hj' =>
          simp only [List.getElem_cons_succ, hM]
          exact e3 j' (Nat.lt_of_succ_lt_succ hj')

/-- C1: for every corpus and utterance, the matcher returns the first
sentence (in insertion order) reaching the highest overlap score, and it
returns it iff that winning score is at least 3; a best overlap of
exactly 2 gives no match, of exactly 3 gives a match. -/
theorem best_knowledge_match_characterization (knowledge : List String) (user_input : String) :
    (best_knowledge_match user_input knowledge = none ↔
      maxOverlap user_input knowledge < 3)
    ∧ (∀ s : String, best_knowledge_match user_input knowledge = some s ↔
        3 ≤ maxOverlap user_input knowledge ∧
        ∃ i, ∃ h : i < knowledge.length, knowledge[i] = s ∧
          tokenOverlap user_input knowledge[i] = maxOverlap user_input knowledge ∧
          ∀ j, ∀ hj : j < i,
            tokenOverlap user_input knowledge[j] < maxOverlap user_input knowledge)
    ∧ (maxOverlap user_input knowledge = 2 →
        best_knowledge_match user_input knowledge = none)
    ∧ (maxOverlap user_input knowledge = 3 →
        ∃ i, ∃ h : i < knowledge.length,
          best_knowledge_match user_input knowledge = some knowledge[i] ∧
          tokenOverlap user_input knowledge[i] = 3) := by
  have hsnd : (bkmGo user_input knowledge none 0).2 = maxOverlap user_input knowledge := by
    rw [bkmGo_snd]
    exact max_eq_right (Nat.zero_le _)
  have hbkm : best_knowledge_match user_input knowledge =
      if 3 ≤ maxOverlap user_input knowledge then (bkmGo user_input knowledge none 0).1
      else none := by
    simp only [best_knowledge_match]
    rw [hsnd]
  by_cases h3 : 3 ≤ maxOverlap user_input knowledge
  · obtain ⟨i, hi, e1, e2, e3⟩ :=
      bkmGo_fst_of_lt user_input knowledge none 0 (lt_of_lt_of_le (by norm_num) h3)
    have heq : best_knowledge_match user_input knowledge = some knowledge[i] := by
      rw [hbkm, if_pos h3]
      exact e1
    refine ⟨?_, ?_, ?_, ?_⟩
    · constructor
      · intro hnone
        rw [heq] at hnone
        exact absurd hnone (by simp)
      · intro hlt
        exact absurd hlt (Nat.not_lt.mpr h3)
    · intro s
      constructor
      · intro hsome
        rw [heq] at hsome
        exact ⟨h3, i, hi, Option.some.inj hsome, e2, e3⟩
      · rintro ⟨-, i', hi', hs', e2', e3'⟩
        have hii : i = i' := by
          rcases Nat.lt_trichotomy i i' with hlt | heqq | hgt
          · have hcontra := e3' i hlt
            rw [e2] at hcontra
            exact absurd hcontra (lt_irrefl _)
          · exact heqq
          · have hcontra := e3 i' hgt
            rw [e2'] at hcontra
            exact absurd hcontra (lt_irrefl _)
        subst hii
        exact heq.trans (congrArg some hs')
    · intro hM2
      rw [hM2] at h3
      exact absurd h3 (by norm_num)
    · intro hM3
      exact ⟨i, hi, heq, by rw [e2, hM3]⟩
  · push_neg at h3
    have heq : best_knowledge_match user_input knowledge = none := by
      rw [hbkm, if_neg (Nat.not_le.mpr h3)]
    refine ⟨⟨fun _ => h3, fun _ => heq⟩, ?_, fun _ => heq, ?_⟩
    · intro s
      constructor
      · intro hsome
        rw [heq] at hsome
        exact absurd hsome (by simp)
      · rintro ⟨hge, -⟩
        exact absurd hge (Nat.not_le.mpr h3)
    · intro hM3
      rw [hM3] at h3
      exact absurd h3 (lt_irrefl 3)

/-- C2 counterexample: ingesting a text in which the same qualifying
sentence occurs twice into the empty (duplicate-free) corpus produces a
corpus with a duplicate, because each candidate is compared against the
corpus only, not against the other new candidates. -/
theorem ingest_duplicate_cex :
    ([] : List String).Nodup ∧
    ¬ (add_to_knowledge [] "Hello there. Hello there.").1.Nodup :=
  ⟨List.nodup_nil, by decide⟩

/-- C2 amended: ingestion preserves freedom from duplicates provided the
qualifying new sentences of the text are themselves pairwise distinct. -/
theorem ingest_preserves_nodup (knowledge : List String) (text : String)
    (h1 : knowledge.Nodup) (h2 : (new_sentences knowledge text).Nodup) :
    (add_to_knowledge knowledge text).1.Nodup := by
  refine List.Nodup.append h1 h2 ?_
  intro a ha hb
  have hmem := List.mem_filter.mp hb
  have : memB a knowledge = false := by
    have := hmem.2
    simp only [Bool.not_eq_true'] at this
    exact this
  rw [← memB_iff_mem a knowledge] at ha
  rw [this] at ha
  exact Bool.false_ne_true ha

/-- Witness for the amended C2 theorem at a concrete corpus and text. -/
theorem ingest_preserves_nodup_witness :
    (add_to_knowledge ["Old stored fact."] "Fresh fact one. Fresh fact two.").1.Nodup :=
  ingest_preserves_nodup ["Old stored fact."] "Fresh fact one. Fresh fact two."
    (by decide) (by decide)

/-- C3: ingesting the same text twice is idempotent: the second call
appends nothing and reports zero added sentences. -/
theorem ingest_idempotent (knowledge : List String) (text : String) :
    add_to_knowledge (add_to_knowledge knowledge text).1 text =
      ((add_to_knowledge knowledge text).1, 0) := by
  have hnil :
      new_sentences (knowledge ++ new_sentences knowledge text) text = [] := by
    show List.filter (fun s => !(memB s (knowledge ++ new_sentences knowledge text)))
      (sentence_candidates text) = []
    rw [List.filter_eq_nil_iff]
    intro a ha
    have hmem : memB a (knowledge ++ new_sentences knowledge text) = true := by
      by_cases hk : memB a knowledge = true
      · rw [memB_append, hk]
        rfl
      · have hk' : memB a knowledge = false := by
          cases hmb : memB a knowledge
          · rfl
          · exact absurd hmb hk
        have hanew : a ∈ new_sentences knowledge text :=
          List.mem_filter.mpr ⟨ha, by rw [hk']; rfl⟩
        rw [memB_append, (memB_iff_mem a _).mpr hanew, Bool.or_true]
    show ¬((!(memB a (knowledge ++ new_sentences knowledge text))) = true)
    rw [hmem]
    simp
  have hk1 : (add_to_knowledge knowledge text).1 =
      knowledge ++ new_sentences knowledge text := rfl
  rw [hk1]
  show ((knowledge ++ new_sentences knowledge text) ++
      new_sentences (knowledge ++ new_sentences knowledge text) text,
      (new_sentences (knowledge ++ new_sentences knowledge text) text).length) = _
  rw [hnil]
  simp

/-- C4 counterexample: the fixture text does not store three sentences;
the trailing fragment of length 3 is dropped by the length filter. -/
theorem segmentation_fixture_cex :
    (add_to_knowledge [] "Hello world. This is fine! Ok?").1 ≠
      ["Hello world.", "This is fine!", "Ok?"] ∧
    "Ok?" ∉ (add_to_knowledge [] "Hello world. This is fine! Ok?").1 := by
  decide

/-- C4 amended: the fixture text splits into the three expected
segments, but only the two whose trimmed length exceeds 5 are stored
(count 2); the trimmed fragment of length 3 is discarded. -/
theorem segmentation_fixture :
    add_to_knowledge [] "Hello world. This is fine! Ok?" =
      (["Hello world.", "This is fine!"], 2) ∧
    splitSentences "Hello world. This is fine! Ok?" =
      ["Hello world.", "This is fine!", "Ok?"] ∧
    pyStrip "Ok?" = "Ok?" ∧ ("Ok?").length ≤ 5 := by
  decide

/-- JSON values as handled by the Python json module.  Numeric literals
are kept as their source tokens: their floating-point meaning is
outside the embedding, and no claim depends on it.  Object entries are
kept in parse order (the source never produces duplicate keys). -/
inductive JVal where
  | null
  | bool (b : Bool)
  | num (tok : String)
  | str (s : String)
  | arr (items : List JVal)
  | obj (entries : List (String × JVal))

/-- Lowercase hexadecimal digit, as used by the json escaper. -/
def hexDigit (n : Nat) : Char :=
  if n < 10 then Char.ofNat (48 + n) else Char.ofNat (87 + n)

/-- Escape of one character inside a JSON string literal, modelling the
json.dump escaper with ensure_ascii=False: quote, backslash and the
named control escapes get two-character escapes, the remaining control
characters get a lowercase 4-digit unicode escape, everything else is
emitted raw. -/
def encodeChar (c : Char) : List Char :=
  if c = '"' then ['\\', '"']
  else if c = '\\' then ['\\', '\\']
  else if c = '\n' then ['\\', 'n']
  else if c = '\t' then ['\\', 't']
  else if c = '\r' then ['\\', 'r']
  else if c = Char.ofNat 8 then ['\\', 'b']
  else if c = Char.ofNat 12 then ['\\', 'f']
  else if c.toNat < 32 then
    ['\\', 'u', '0', '0', hexDigit (c.toNat / 16), hexDigit (c.toNat % 16)]
  else [c]

/-- Escaped body of a JSON string literal. -/
def encBodyL (l : List Char) : List Char :=
  l.flatMap encodeChar

/-- Serialized JSON string literal, quotes included. -/
def encString (s : String) : List Char :=
  '"' :: encBodyL s.data ++ ['"']

/-- Indentation prefix at a nesting level for json.dump with indent=2. -/
def jIndent (lvl : Nat) : List Char :=
  List.replicate (2 * lvl) ' '

mutual
/-- Serialization of a JSON value at a nesting level, modelling
json.dump(value, f, indent=2, ensure_ascii=False). -/
def ser : JVal → Nat → List Char
  | .null, _ => ['n', 'u', 'l', 'l']
  | .bool true, _ => ['t', 'r', 'u', 'e']
  | .bool false, _ => ['f', 'a', 'l', 's', 'e']
  | .num tok, _ => tok.data
  | .str s, _ => encString s
  | .arr [], _ => ['[', ']']
  | .arr (x :: xs), lvl =>
    '[' :: '\n' :: serItems (x :: xs) (lvl + 1) ++ '\n' :: jIndent lvl ++ [']']
  | .obj [], _ => ['{', '}']
  | .obj (kv :: kvs), lvl =>
    '{' :: '\n' :: serEntries (kv :: kvs) (lvl + 1) ++ '\n' :: jIndent lvl ++ ['}']
/-- Comma-and-newline separated array items, each on its own indented line. -/
def serItems : List JVal → Nat → List Char
  | [], _ => []
  | [x], lvl => jIndent lvl ++ ser x lvl
  | x :: y :: xs, lvl =>
    jIndent lvl ++ ser x lvl ++ ',' :: '\n' :: serItems (y :: xs) lvl
/-- Comma-and-newline separated object entries, keys separated by a colon. -/
def serEntries : List (String × JVal) → Nat → List Char
  | [], _ => []
  | [(k, v)], lvl => jIndent lvl ++ encString k ++ ':' :: ' ' :: ser v lvl
  | (k, v) :: kv :: kvs, lvl =>
    jIndent lvl ++ encString k ++ ':' :: ' ' :: ser v lvl ++
      ',' :: '\n' :: serEntries (kv :: kvs) lvl
end

/-- Model of json.dump(value, f, indent=2, ensure_ascii=False) as used
by save_knowledge, save_session and save_session_timestamped. -/
def serializeJson (v : JVal) : String :=
  String.mk (ser v 0)

/-- Whitespace accepted between JSON tokens by the json module. -/
def isJsonWs (c : Char) : Bool :=
  c = ' ' || c = '\t' || c = '\n' || c = '\r'

/-- Drop leading JSON whitespace. -/
def skipWs (cs : List Char) : List Char :=
  cs.dropWhile isJsonWs

/-- Value of a hexadecimal digit character, if any. -/
def hexVal (c : Char) : Option Nat :=
  if '0' ≤ c ∧ c ≤ '9' then some (c.toNat - 48)
  else if 'a' ≤ c ∧ c ≤ 'f' then some (c.toNat - 87)
  else if 'A' ≤ c ∧ c ≤ 'F' then some (c.toNat - 55)
  else none

/-- Body of a JSON string literal after the opening quote, modelling the
strict json scanner: returns the decoded characters and the rest after
the closing quote; unescaped control characters, bad escapes, and a
missing closing quote are errors.  Each unicode escape is decoded
through Char.ofNat on its own: the scanner's recombination of surrogate
escape pairs is not modelled, since Lean characters cannot carry
surrogates; this changes only the decoded value of surrogate escapes
(never whether an input is accepted), and no claim depends on it. -/
def parseStrBody : List Char → Option (List Char × List Char)
  | [] => none
  | c :: rest =>
    if c = '"' then some ([], rest)
    else if c = '\\' then
      match rest with
      | [] => none
      | e :: r =>
        if e = '"' then (parseStrBody r).map (fun p => ('"' :: p.1, p.2))
        else if e = '\\' then (parseStrBody r).map (fun p => ('\\' :: p.1, p.2))
        else if e = '/' then (parseStrBody r).map (fun p => ('/' :: p.1, p.2))
        else if e = 'n' then (parseStrBody r).map (fun p => ('\n' :: p.1, p.2))
        else if e = 't' then (parseStrBody r).map (fun p => ('\t' :: p.1, p.2))
        else if e = 'r' then (parseStrBody r).map (fun p => ('\r' :: p.1, p.2))
        else if e = 'b' then (parseStrBody r).map (fun p => (Char.ofNat 8 :: p.1, p.2))
        else if e = 'f' then (parseStrBody r).map (fun p => (Char.ofNat 12 :: p.1, p.2))
        else if e = 'u' then
          match r with
          | h1 :: h2 :: h3 :: h4 :: r2 =>
            match hexVal h1, hexVal h2, hexVal h3, hexVal h4 with
            | some a, some b, some c3, some d =>
              (parseStrBody r2).map (fun p =>
                (Char.ofNat (((a * 16 + b) * 16 + c3) * 16 + d) :: p.1, p.2))
            | _, _, _, _ => none
          | _ => none
        else none
    else if c.toNat < 32 then none
    else (parseStrBody rest).map (fun p => (c :: p.1, p.2))

/-- Longest digit run split off the front of the input. -/
def spanDigits (cs : List Char) : List Char × List Char :=
  (cs.takeWhile Char.isDigit, cs.dropWhile Char.isDigit)

/-- Integer part of the JSON number grammar: 0, or a nonzero digit
followed by digits. -/
def parseIntPart : List Char → Option (List Char × List Char)
  | [] => none
  | c :: rest =>
    if c = '0' then some (['0'], rest)
    else if '1' ≤ c ∧ c ≤ '9' then
      some (c :: (spanDigits rest).1, (spanDigits rest).2)
    else none

/-- Optional fraction part: a dot followed by at least one digit;
otherwise nothing is consumed (the regex group simply fails to match). -/
def parseFracPart (cs : List Char) : List Char × List Char :=
  match cs with
  | '.' :: r =>
    match spanDigits r with
    | ([], _) => ([], cs)
    | (ds, r2) => ('.' :: ds, r2)
  | _ => ([], cs)

/-- Optional exponent part: e or E, an optional sign, and at least one
digit; otherwise nothing is consumed. -/
def parseExpPart (cs : List Char) : List Char × List Char :=
  match cs with
  | e :: r =>
    if e = 'e' ∨ e = 'E' then
      match (match r with
             | '+' :: r2 => ((['+'] : List Char), r2)
             | '-' :: r2 => ((['-'] : List Char), r2)
             | _ => (([] : List Char), r)) with
      | (sg, r1) =>
        match spanDigits r1 with
        | ([], _) => ([], cs)
        | (ds, r2) => (e :: (sg ++ ds), r2)
    else ([], cs)
  | [] => ([], cs)

/-- Number token at the front of the input, per the json module's
number regex; the matched token is returned verbatim. -/
def parseNumber (cs : List Char) : Option (List Char × List Char) :=
  match (match cs with
         | '-' :: r => ((['-'] : List Char), r)
         | _ => (([] : List Char), cs)) with
  | (sign, cs1) =>
    match parseIntPart cs1 with
    | none => none
    | some (ip, r1) =>
      match parseFracPart r1 with
      | (fp, r2) =>
        match parseExpPart r2 with
        | (ep, r3) => some (sign ++ ip ++ fp ++ ep, r3)

/-- Parse state: a value is expected, or an array/object is being
continued with the items accumulated so far (reversed). -/
inductive PMode where
  | val
  | arrRest (acc : List JVal)
  | objRest (acc : List (String × JVal))

/-- Dispatch on the first character of a value, modelling the Python
json scanner's scan_once on whitespace-free input (strings, objects,
arrays, the three keyword constants, the NaN and Infinity constants,
and numbers); next continues the scan of an unfinished array or
object. -/
def parseValCore (next : PMode → List Char → Option (JVal × List Char)) :
    List Char → Option (JVal × List Char) := fun cs =>
  match cs with
  | 'n' :: 'u' :: 'l' :: 'l' :: r => some (.null, r)
  | 't' :: 'r' :: 'u' :: 'e' :: r => some (.bool true, r)
  | 'f' :: 'a' :: 'l' :: 's' :: 'e' :: r => some (.bool false, r)
  | 'N' :: 'a' :: 'N' :: r => some (.num "NaN", r)
  | 'I' :: 'n' :: 'f' :: 'i' :: 'n' :: 'i' :: 't' :: 'y' :: r =>
    some (.num "Infinity", r)
  | '-' :: 'I' :: 'n' :: 'f' :: 'i' :: 'n' :: 'i' :: 't' :: 'y' :: r =>
    some (.num "-Infinity", r)
  | '"' :: r => (parseStrBody r).map (fun p => (.str (String.mk p.1), p.2))
  | '[' :: r =>
    (match skipWs r with
     | ']' :: r2 => some (.arr [], r2)
     | _ => next (.arrRest []) r)
  | '{' :: r =>
    (match skipWs r with
     | '}' :: r2 => some (.obj [], r2)
     | _ => next (.objRest []) r)
  | cs2 => (parseNumber cs2).map (fun p => (.num (String.mk p.1), p.2))

/-- Recursive-descent JSON scanner, modelling the Python json scanner.
The Nat argument is recursion fuel: it only bounds nesting-related
recursion and is chosen large enough by parseJson never to cut off a
parse of the given input. -/
def parseRun : Nat → PMode → List Char → Option (JVal × List Char)
  | 0, _, _ => none
  | f + 1, .val, cs => parseValCore (fun m cs2 => parseRun f m cs2) (skipWs cs)
  | f + 1, .arrRest acc, cs =>
    match parseRun f .val cs with
    | some (v, r) =>
      (match skipWs r with
       | ',' :: r2 => parseRun f (.arrRest (v :: acc)) r2
       | ']' :: r2 => some (.arr ((v :: acc).reverse), r2)
       | _ => none)
    | none => none
  | f + 1, .objRest acc, cs =>
    match skipWs cs with
    | '"' :: r =>
      (match parseStrBody r with
       | some (k, r2) =>
         (match skipWs r2 with
          | ':' :: r3 =>
            (match parseRun f .val r3 with
             | some (v, r4) =>
               (match skipWs r4 with
                | ',' :: r5 => parseRun f (.objRest ((String.mk k, v) :: acc)) r5
                | '}' :: r5 => some (.obj ((String.mk k, v) :: acc).reverse, r5)
                | _ => none)
             | none => none)
          | _ => none)
       | none => none)
    | _ => none

/-- Model of json.load / json.loads: parse one value and require that
only whitespace follows.  The fuel 2 * length + 2 strictly dominates
the number of scanner steps any input of that length can take. -/
def parseJson (s : String) : Option JVal :=
  match parseRun (2 * s.length + 2) .val s.data with
  | some (v, rest) => if skipWs rest = [] then some v else none
  | none => none

/-- Strings held by a parsed JSON array, if every item is a string. -/
def strListOf : List JVal → Option (List String)
  | [] => some []
  | .str s :: rest => (strListOf rest).map (fun l => s :: l)
  | _ :: _ => none

/-- View of a JSON value as a list of strings (the corpus format). -/
def asStringList : JVal → Option (List String)
  | .arr xs => strListOf xs
  | _ => none

/-- Model of save_knowledge (iaserver.py lines 67-69): the corpus is
written as a pretty-printed JSON array of strings. -/
def save_knowledge (corpus : List String) : String :=
  serializeJson (.arr (corpus.map .str))

/-- Model of load_knowledge (iaserver.py lines 57-65) acting on the
knowledge-file state (none = file absent).  Returns the loaded value
together with the file content after the call: an absent file is first
created holding an empty array; a JSON decode error yields the empty
array; any successfully parsed value - of whatever shape - is returned
as-is. -/
def load_knowledge (file : Option String) : JVal × String :=
  match file with
  | none => (.arr [], "[]")
  | some c =>
    (match parseJson c with
     | some v => v
     | none => .arr [], c)

theorem hexVal_hexDigit : ∀ n, n < 16 → hexVal (hexDigit n) = some n := by decide

theorem parseStrBody_enc : ∀ (l rest : List Char),
    parseStrBody (encBodyL l ++ '"' :: rest) = some (l, rest) := by
  intro l
  induction l with
  | nil =>
    intro rest
    show parseStrBody ([].flatMap encodeChar ++ '"' :: rest) = some ([], rest)
    rw [List.flatMap_nil, List.nil_append, parseStrBody.eq_def]
    simp
  | cons c l ih =>
    intro rest
    have hstep : encBodyL (c :: l) ++ '"' :: rest =
        encodeChar c ++ (encBodyL l ++ '"' :: rest) := by
      simp [encBodyL]
    rw [hstep]
    by_cases h1 : c = '"'
    · subst h1
      rw [show encodeChar '"' = ['\\', '"'] from by decide]
      rw [List.cons_append, List.cons_append, parseStrBody.eq_def]
      simp [ih]
    · by_cases h2 : c = '\\'
      · subst h2
        rw [show encodeChar '\\' = ['\\', '\\'] from by decide]
        rw [List.cons_append, List.cons_append, parseStrBody.eq_def]
        simp [ih]
      · by_cases h3 : c = '\n'
        · subst h3
          rw [show encodeChar '\n' = ['\\', 'n'] from by decide]
          rw [List.cons_append, List.cons_append, parseStrBody.eq_def]
          simp [ih]
        · by_cases h4 : c = '\t'
          · subst h4
            rw [show encodeChar '\t' = ['\\', 't'] from by decide]
            rw [List.cons_append, List.cons_append, parseStrBody.eq_def]
            simp [ih]
          · by_cases h5 : c = '\r'
            · subst h5
              rw [show encodeChar '\r' = ['\\', 'r'] from by decide]
              rw [List.cons_append, List.cons_append, parseStrBody.eq_def]
              simp [ih]
            · by_cases h6 : c = Char.ofNat 8
              · subst h6
                rw [show encodeChar (Char.ofNat 8) = ['\\', 'b'] from by decide]
                rw [List.cons_append, List.cons_append, parseStrBody.eq_def]
                simp [ih]
              · by_cases h7 : c = Char.ofNat 12
                · subst h7
                  rw [show encodeChar (Char.ofNat 12) = ['\\', 'f'] from by decide]
                  rw [List.cons_append, List.cons_append, parseStrBody.eq_def]
                  simp [ih]
                · by_cases h8 : c.toNat < 32
                  · have e1 : encodeChar c =
                        ['\\', 'u', '0', '0', hexDigit (c.toNat / 16),
                          hexDigit (c.toNat % 16)] := by
                      simp [encodeChar, h1, h2, h3, h4, h5, h6, h7, h8]
                    rw [e1]
                    have hhi : hexVal (hexDigit (c.toNat / 16)) = some (c.toNat / 16) :=
                      hexVal_hexDigit _ (by omega)
                    have hlo : hexVal (hexDigit (c.toNat % 16)) = some (c.toNat % 16) :=
                      hexVal_hexDigit _ (by omega)
                    have hch : Char.ofNat
                        (((0 * 16 + 0) * 16 + c.toNat / 16) * 16 + c.toNat % 16) = c := by
                      have harith : ((0 * 16 + 0) * 16 + c.toNat / 16) * 16 + c.toNat % 16 =
                          c.toNat := by omega
                      rw [harith, Char.ofNat_toNat]
                    rw [List.cons_append, List.cons_append, List.cons_append,
                      List.cons_append, List.cons_append, List.cons_append,
                      parseStrBody.eq_def]
                    simp [hhi, hlo, ih]
                    rw [show hexVal '0' = some 0 from by decide]
                    show some (Char.ofNat
                      (((0 * 16 + 0) * 16 + c.toNat / 16) * 16 + c.toNat % 16) :: l, rest) =
                      some (c :: l, rest)
                    rw [hch]
                  · have e1 : encodeChar c = [c] := by
                      simp [encodeChar, h1, h2, h3, h4, h5, h6, h7, h8]
                    rw [e1]
                    rw [List.cons_append, parseStrBody.eq_def]
                    simp [h1, h2, h8, ih]

theorem skipWs_append_of_ws (pre cs : List Char) (h : ∀ c ∈ pre, isJsonWs c = true) :
    skipWs (pre ++ cs) = skipWs cs := by
  induction pre with
  | nil => simp
  | cons p ps ih =>
    have hp : isJsonWs p = true := h p (by simp)
    have hps : ∀ c ∈ ps, isJsonWs c = true := fun c hc => h c (by simp [hc])
    simp only [List.cons_append, skipWs, List.dropWhile]
    rw [hp]
    exact ih hps

theorem skipWs_cons_of_not_ws (c : Char) (cs : List Char) (h : isJsonWs c = false) :
    skipWs (c :: cs) = c :: cs := by
  simp only [skipWs, List.dropWhile]
  rw [h]

theorem mk_data_eq (s : String) : String.mk s.data = s := rfl

theorem parseRun_val_eq (f : Nat) (cs : List Char) :
    parseRun (f + 1) .val cs =
      parseValCore (fun m cs2 => parseRun f m cs2) (skipWs cs) := rfl

theorem parseRun_arrRest_eq (f : Nat) (acc : List JVal) (cs : List Char) :
    parseRun (f + 1) (.arrRest acc) cs =
      (match parseRun f .val cs with
       | some (v, r) =>
         (match skipWs r with
          | ',' :: r2 => parseRun f (.arrRest (v :: acc)) r2
          | ']' :: r2 => some (.arr ((v :: acc).reverse), r2)
          | _ => none)
       | none => none) := rfl

theorem parseValCore_str (next : PMode → List Char → Option (JVal × List Char))
    (r : List Char) :
    parseValCore next ('"' :: r) =
      (parseStrBody r).map (fun p => (.str (String.mk p.1), p.2)) := rfl

theorem parseValCore_arr (next : PMode → List Char → Option (JVal × List Char))
    (r : List Char) :
    parseValCore next ('[' :: r) =
      (match skipWs r with
       | ']' :: r2 => some (.arr [], r2)
       | _ => next (.arrRest []) r) := rfl

theorem parseRun_val_congr (f : Nat) (cs cs2 : List Char) (h : skipWs cs = skipWs cs2) :
    parseRun (f + 1) .val cs = parseRun (f + 1) .val cs2 := by
  rw [parseRun_val_eq, parseRun_val_eq, h]

theorem parseRun_val_str (f : Nat) (l rest : List Char) :
    parseRun (f + 1) .val ('"' :: encBodyL l ++ '"' :: rest) =
      some (.str (String.mk l), rest) := by
  rw [parseRun_val_eq, List.cons_append, skipWs_cons_of_not_ws _ _ (by decide),
    parseValCore_str, parseStrBody_enc]
  rfl

theorem serItems_str_shape (x : String) (xs : List String) :
    ∃ Z : List Char, serItems ((x :: xs).map .str) 1 = jIndent 1 ++ '"' :: Z := by
  cases xs with
  | nil =>
    exact ⟨encBodyL x.data ++ ['"'], by simp [serItems, ser, encString]⟩
  | cons y ys =>
    exact ⟨encBodyL x.data ++ ['"'] ++ ',' :: '\n' :: serItems ((y :: ys).map .str) 1,
      by simp [serItems, ser, encString]⟩

theorem arrRest_close (f : Nat) (acc : List JVal) (cs r rest : List Char) (v : JVal)
    (hval : parseRun f .val cs = some (v, r)) (hsk : skipWs r = ']' :: rest) :
    parseRun (f + 1) (.arrRest acc) cs = some (.arr ((v :: acc).reverse), rest) := by
  have h1 : parseRun (f + 1) (.arrRest acc) cs =
      (match skipWs r with
       | ',' :: r2 => parseRun f (.arrRest (v :: acc)) r2
       | ']' :: r2 => some (.arr ((v :: acc).reverse), r2)
       | _ => none) := by
    rw [parseRun_arrRest_eq, hval]
  rw [h1, hsk]
  rfl

theorem arrRest_continue (f : Nat) (acc : List JVal) (cs r r2 : List Char) (v : JVal)
    (hval : parseRun f .val cs = some (v, r)) (hsk : skipWs r = ',' :: r2) :
    parseRun (f + 1) (.arrRest acc) cs = parseRun f (.arrRest (v :: acc)) r2 := by
  have h1 : parseRun (f + 1) (.arrRest acc) cs =
      (match skipWs r with
       | ',' :: r2 => parseRun f (.arrRest (v :: acc)) r2
       | ']' :: r2 => some (.arr ((v :: acc).reverse), r2)
       | _ => none) := by
    rw [parseRun_arrRest_eq, hval]
  rw [h1, hsk]
  rfl

theorem skipWs_nl (cs : List Char) : skipWs ('\n' :: cs) = skipWs cs := by
  rw [show ('\n' :: cs) = ['\n'] ++ cs from rfl]
  exact skipWs_append_of_ws _ _ (by intro c hc; simp at hc; rw [hc]; rfl)

theorem parseRun_arrRest_strings :
    ∀ (ys : List String) (f : Nat) (acc : List JVal) (pre rest : List Char),
      (∀ c ∈ pre, isJsonWs c = true) → ys ≠ [] → ys.length + 1 ≤ f →
      parseRun f (.arrRest acc) (pre ++ serItems (ys.map .str) 1 ++ '\n' :: ']' :: rest) =
        some (.arr (acc.reverse ++ ys.map .str), rest) := by
  intro ys
  induction ys with
  | nil => intro f acc pre rest _ hne _; exact absurd rfl hne
  | cons y zs ih =>
    intro f acc pre rest hpre _ hf
    have hprews : ∀ c ∈ pre ++ jIndent 1, isJsonWs c = true := by
      intro c hc
      rcases List.mem_append.mp hc with hc1 | hc1
      · exact hpre c hc1
      · simp only [jIndent, List.mem_replicate] at hc1
        rw [hc1.2]; rfl
    simp only [List.length_cons] at hf
    obtain ⟨g, rfl⟩ : ∃ g, f = g + 1 + 1 := ⟨f - 2, by omega⟩
    cases zs with
    | nil =>
      have hIn : pre ++ serItems ([y].map .str) 1 ++ '\n' :: ']' :: rest =
          (pre ++ jIndent 1) ++
            ('"' :: encBodyL y.data ++ '"' :: ('\n' :: ']' :: rest)) := by
        simp [serItems, ser, encString]
      rw [hIn]
      have hval : parseRun (g + 1) .val
          ((pre ++ jIndent 1) ++
            ('"' :: encBodyL y.data ++ '"' :: ('\n' :: ']' :: rest))) =
          some (.str (String.mk y.data), '\n' :: ']' :: rest) := by
        rw [parseRun_val_congr g _
          ('"' :: encBodyL y.data ++ '"' :: ('\n' :: ']' :: rest))
          (skipWs_append_of_ws _ _ hprews)]
        exact parseRun_val_str g y.data ('\n' :: ']' :: rest)
      have hsk : skipWs ('\n' :: ']' :: rest) = ']' :: rest := by
        rw [skipWs_nl]
        exact skipWs_cons_of_not_ws _ _ (by decide)
      rw [arrRest_close (g + 1) acc _ _ rest _ hval hsk]
      simp [mk_data_eq]
    | cons z zs' =>
      have hIn : pre ++ serItems ((y :: z :: zs').map .str) 1 ++ '\n' :: ']' :: rest =
          (pre ++ jIndent 1) ++
            ('"' :: encBodyL y.data ++ '"' ::
              (',' :: ('\n' ::
                (serItems ((z :: zs').map .str) 1 ++ '\n' :: ']' :: rest)))) := by
        simp [serItems, ser, encString]
      rw [hIn]
      have hval : parseRun (g + 1) .val
          ((pre ++ jIndent 1) ++
            ('"' :: encBodyL y.data ++ '"' ::
              (',' :: ('\n' ::
                (serItems ((z :: zs').map .str) 1 ++ '\n' :: ']' :: rest))))) =
          some (.str (String.mk y.data),
            ',' :: ('\n' ::
              (serItems ((z :: zs').map .str) 1 ++ '\n' :: ']' :: rest))) := by
        rw [parseRun_val_congr g _
          ('"' :: encBodyL y.data ++ '"' ::
            (',' :: ('\n' ::
              (serItems ((z :: zs').map .str) 1 ++ '\n' :: ']' :: rest))))
          (skipWs_append_of_ws _ _ hprews)]
        exact parseRun_val_str g y.data _
      have hsk : skipWs
          (',' :: ('\n' ::
            (serItems ((z :: zs').map .str) 1 ++ '\n' :: ']' :: rest))) =
          ',' :: ('\n' ::
            (serItems ((z :: zs').map .str) 1 ++ '\n' :: ']' :: rest)) :=
        skipWs_cons_of_not_ws _ _ (by decide)
      rw [arrRest_continue (g + 1) acc _ _ _ _ hval hsk]
      have hrec := ih (g + 1) (.str (String.mk y.data) :: acc) ['\n'] rest
        (by intro c hc; simp at hc; rw [hc]; rfl)
        (by simp) (by simp only [List.length_cons] at hf ⊢; omega)
      simp only [List.cons_append, List.nil_append] at hrec
      rw [hrec]
      simp [mk_data_eq]

theorem serItems_length_ge :
    ∀ ys : List String, ys.length ≤ (serItems (ys.map .str) 1).length := by
  intro ys
  induction ys with
  | nil => simp [serItems]
  | cons y zs ih =>
    cases zs with
    | nil => simp [serItems, jIndent]
    | cons z zs' =>
      have h : serItems ((y :: z :: zs').map .str) 1 =
          jIndent 1 ++ ser (.str y) 1 ++ ',' :: '\n' :: serItems ((z :: zs').map .str) 1 := by
        simp [serItems]
      rw [h]
      simp only [List.length_append, List.length_cons, List.length_map] at ih ⊢
      omega

theorem parseJson_save_knowledge (corpus : List String) :
    parseJson (save_knowledge corpus) = some (.arr (corpus.map .str)) := by
  cases corpus with
  | nil => rfl
  | cons x xs =>
    have hchars : (save_knowledge (x :: xs)).data =
        '[' :: ('\n' :: (serItems ((x :: xs).map .str) 1 ++ '\n' :: ']' :: [])) := by
      simp [save_knowledge, serializeJson, ser, jIndent]
    have hlen : (x :: xs).length + 1 ≤ 2 * (save_knowledge (x :: xs)).length + 1 := by
      have h1 : (save_knowledge (x :: xs)).length = (save_knowledge (x :: xs)).data.length := rfl
      rw [h1, hchars]
      have := serItems_length_ge (x :: xs)
      simp only [List.length_cons, List.length_append, List.length_map] at this ⊢
      omega
    obtain ⟨Z, hZ⟩ := serItems_str_shape x xs
    have hskip : skipWs ('\n' :: (serItems ((x :: xs).map .str) 1 ++ '\n' :: ']' :: [])) =
        '"' :: (Z ++ '\n' :: ']' :: []) := by
      rw [hZ]
      have hsplit : '\n' :: ((jIndent 1 ++ '"' :: Z) ++ '\n' :: ']' :: []) =
          ('\n' :: jIndent 1) ++ ('"' :: (Z ++ '\n' :: ']' :: [])) := by
        simp
      rw [hsplit]
      rw [skipWs_append_of_ws _ _ (by
        intro c hc
        simp only [List.mem_cons, jIndent, List.mem_replicate] at hc
        rcases hc with hc | hc
        · rw [hc]; rfl
        · rw [hc.2]; rfl)]
      exact skipWs_cons_of_not_ws _ _ (by decide)
    have hrun : parseRun (2 * (save_knowledge (x :: xs)).length + 1 + 1) .val
        (save_knowledge (x :: xs)).data = some (.arr ((x :: xs).map .str), []) := by
      rw [parseRun_val_eq, hchars]
      rw [skipWs_cons_of_not_ws _ _ (by decide)]
      rw [parseValCore_arr]
      rw [hskip]
      have hloop := parseRun_arrRest_strings (x :: xs)
        (2 * (save_knowledge (x :: xs)).length + 1)
        [] ['\n'] [] (by intro c hc; simp at hc; rw [hc]; rfl) (by simp) hlen
      simp only [List.cons_append, List.nil_append] at hloop
      have hred : (match ('"' : Char) :: (Z ++ '\n' :: ']' :: []) with
          | ']' :: r2 => some (JVal.arr [], r2)
          | _ => parseRun (2 * (save_knowledge (x :: xs)).length + 1) (.arrRest [])
              ('\n' :: (serItems ((x :: xs).map .str) 1 ++ '\n' :: ']' :: []))) =
          parseRun (2 * (save_knowledge (x :: xs)).length + 1) (.arrRest [])
            ('\n' :: (serItems ((x :: xs).map .str) 1 ++ '\n' :: ']' :: [])) := rfl
      rw [hred, hloop]
      simp
    show (match parseRun (2 * (save_knowledge (x :: xs)).length + 2) .val
        (save_knowledge (x :: xs)).data with
      | some (v, rest) => if skipWs rest = [] then some v else none
      | none => none) = some (.arr ((x :: xs).map .str))
    rw [show 2 * (save_knowledge (x :: xs)).length + 2 =
      2 * (save_knowledge (x :: xs)).length + 1 + 1 from rfl]
    rw [hrun]
    simp [skipWs]

theorem strListOf_map_str : ∀ l : List String, strListOf (l.map .str) = some l := by
  intro l
  induction l with
  | nil => rfl
  | cons x xs ih => simp [strListOf, ih]

/-- C5: saving the corpus with the knowledge store and loading it back
yields the identical ordered sequence of strings. -/
theorem knowledge_save_load_roundtrip (corpus : List String) :
    load_knowledge (some (save_knowledge corpus)) =
      (.arr (corpus.map .str), save_knowledge corpus) ∧
    asStringList (load_knowledge (some (save_knowledge corpus))).1 = some corpus := by
  have h := parseJson_save_knowledge corpus
  constructor
  · show (match parseJson (save_knowledge corpus) with
      | some v => v
      | none => .arr [], save_knowledge corpus) = _
    rw [h]
  · show asStringList (match parseJson (save_knowledge corpus) with
      | some v => v
      | none => .arr [], save_knowledge corpus).1 = some corpus
    rw [h]
    exact strListOf_map_str corpus

/-- C6 counterexample: the file content 5 is valid JSON but is not the
corpus format (a JSON array of strings); load_knowledge returns the
parsed number as-is instead of an empty corpus, because only JSON
decode errors are caught. -/
theorem load_corrupt_cex :
    (load_knowledge (some "5")).1 = JVal.num "5" ∧
    JVal.num "5" ≠ JVal.arr [] ∧
    asStringList (load_knowledge (some "5")).1 = none := by
  refine ⟨rfl, ?_, rfl⟩
  intro h
  exact JVal.noConfusion h

/-- C6 amended: content on which the JSON parse fails loads as the
empty corpus rather than raising, and an absent backing file is created
holding an empty array and loads as the empty corpus; however, content
that parses as JSON of a shape other than the corpus format is returned
as-is, not as an empty corpus. -/
theorem load_corrupt_tolerance (c : String) (h : parseJson c = none) :
    load_knowledge (some c) = (JVal.arr [], c) ∧
    load_knowledge none = (JVal.arr [], "[]") := by
  constructor
  · show (match parseJson c with
      | some v => v
      | none => JVal.arr [], c) = _
    rw [h]
  · rfl

/-- Witness for the amended C6 theorem at a concrete corrupt content. -/
theorem load_corrupt_tolerance_witness :
    load_knowledge (some "not json [") = (JVal.arr [], "not json [") :=
  (load_corrupt_tolerance "not json [" rfl).1

/-- Model of load_session (iaserver.py lines 88-95): parse the current
session file; an absent file or a JSON decode error yields the empty
list value. -/
def load_session (file : Option String) : JVal :=
  match file with
  | none => .arr []
  | some c =>
    match parseJson c with
    | some v => v
    | none => .arr []

/-- List p is a leading segment of l (boolean helper). -/
def startsWithB : List Char → List Char → Bool
  | [], _ => true
  | _ :: _, [] => false
  | p :: ps, c :: cs => p = c && startsWithB ps cs

/-- List pat occurs contiguously inside the second list. -/
def containsSeq (pat : List Char) : List Char → Bool
  | [] => startsWithB pat []
  | c :: rest => startsWithB pat (c :: rest) || containsSeq pat rest

/-- Substring test, modelling the Python expression pat in hay on
strings. -/
def strContains (hay pat : String) : Bool :=
  containsSeq pat.data hay.data

/-- One step of the timestamp-backfill loop of save_session and
save_session_timestamped (iaserver.py lines 98-100 and 106-108) on one
session entry.  A dict lacking the timestamp key gets one, a dict with
it is kept.  Entries of other shapes make the Python loop raise
(modelled as none), except the containment corner cases that skip the
assignment: on a string entry the membership test is a substring test,
on a list entry it is a member test. -/
def backfillMsg (now : String) : JVal → Option JVal
  | .obj kvs =>
    some (if kvs.any (fun kv => kv.1 = "timestamp") then .obj kvs
      else .obj (kvs ++ [("timestamp", .str now)]))
  | .str s => if strContains s "timestamp" then some (.str s) else none
  | .arr xs =>
    if xs.any (fun x => match x with
        | .str t => t = "timestamp"
        | _ => false)
      then some (.arr xs) else none
  | _ => none

/-- Backfill over a list of session entries, failing on the first entry
on which the loop raises. -/
def backfillList (now : String) : List JVal → Option (List JVal)
  | [] => some []
  | m :: rest =>
    match backfillMsg now m with
    | some m2 => (backfillList now rest).map (fun l => m2 :: l)
    | none => none

/-- Backfill over the loaded session value.  Iterating a non-list in
Python: a dict iterates its keys (strings), which are kept when every
key contains the substring and raise on assignment otherwise; a string
iterates its characters and raises unless empty; numbers and constants
are not iterable and raise at once. -/
def backfillAll (now : String) : JVal → Option JVal
  | .arr msgs => (backfillList now msgs).map .arr
  | .obj kvs =>
    if kvs.all (fun kv => strContains kv.1 "timestamp") then some (.obj kvs) else none
  | .str s => if s = "" then some (.str s) else none
  | _ => none

/-- Total description of the backfill on one turn, used to state what
the archived copy holds for object entries. -/
def backfillTurn (now : String) : JVal → JVal
  | .obj kvs =>
    if kvs.any (fun kv => kv.1 = "timestamp") then .obj kvs
    else .obj (kvs ++ [("timestamp", .str now)])
  | v => v

/-- The value is a JSON object. -/
def isObjB : JVal → Bool
  | .obj _ => true
  | _ => false

theorem backfillList_obj (now : String) :
    ∀ l : List JVal, (∀ t ∈ l, isObjB t = true) →
      backfillList now l = some (l.map (backfillTurn now)) := by
  intro l
  induction l with
  | nil => intro _; rfl
  | cons m rest ih =>
    intro h
    have hm := h m (by simp)
    match m, hm with
    | .obj kvs, _ =>
      have hrec := ih (fun t ht => h t (by simp [ht]))
      simp [backfillList, backfillMsg, backfillTurn, hrec]

/-- Model of save_session (iaserver.py lines 97-102): backfill missing
timestamps and serialize the full log as the new content of the current
session file; none models the error the loop raises on entries that are
not dicts. -/
def save_session (session : JVal) (now : String) : Option String :=
  (backfillAll now session).map serializeJson

/-- Model of save_session_timestamped (iaserver.py lines 104-113): load
the current log, backfill timestamps on the in-memory copy, and write
that copy to a fresh timestamp-named archive file.  The function never
opens the current session file for writing, so the pair returned is the
archive (filename, content) - none when the backfill raises - together
with the current session file afterwards, which is returned unchanged. -/
def save_session_timestamped (sessionFile : Option String) (now stamp : String) :
    Option (String × String) × Option String :=
  match backfillAll now (load_session sessionFile) with
  | some s2 =>
    (some ("sessions/session_" ++ stamp ++ ".json", serializeJson s2), sessionFile)
  | none => (none, sessionFile)

/-- Persisted files the chat route touches: the knowledge file and the
current session file (none = absent). -/
structure FileState where
  knowledgeFile : Option String
  sessionFile : Option String

/-- Fallback reply (iaserver.py lines 144-153): the completion service
either returns text, which is stripped, or raises, in which case the
error description is embedded in a substitute reply. -/
def fallbackText : Except String String → String
  | .ok t => pyStrip t
  | .error e => "⚠️ Model error: " ++ e

/-- Reply selection of the chat route (iaserver.py lines 141-153): a
falsy match result defers to the completion service (the source tests
falsiness, which also covers an empty matched string, though the
matcher cannot produce one). -/
def chat_reply (knowledge : List String) (llm : Except String String)
    (user_input : String) : String :=
  match best_knowledge_match user_input knowledge with
  | some m => if m = "" then fallbackText llm else m
  | none => fallbackText llm

/-- Sentences the matcher loop draws from the loaded knowledge value,
following Python iteration: a list must hold only strings (a non-string
element raises at lower()), a dict yields its keys, a string yields its
characters, anything else is not iterable and raises (none). -/
def iterStrings : JVal → Option (List String)
  | .arr xs => strListOf xs
  | .obj kvs => some (kvs.map (fun kv => kv.1))
  | .str s => some (s.data.map (fun c => String.mk [c]))
  | _ => none

/-- Model of the chat route (iaserver.py lines 135-160) acting on the
persisted file state; llm stands for the external completion call and
now for the timestamps drawn during the exchange.  The result is the
reply with the new file state, or none when the handler raises before
replying (a session value that is not a list, or an entry of it that
is not a dict, makes the appending or the backfill raise; the HTTP
layer then reports a server error and no reply is produced).  An empty
or whitespace-only message is answered immediately, before any file is
read or written. -/
def chat (st : FileState) (llm : Except String String) (now : String)
    (msg : String) : Option (String × FileState) :=
  let user_input := pyStrip msg
  if user_input = "" then some ("Say something...", st)
  else
    let kld := load_knowledge st.knowledgeFile
    match iterStrings kld.1 with
    | none => none
    | some knowledge =>
      let reply := chat_reply knowledge llm user_input
      match load_session st.sessionFile with
      | .arr turns =>
        (match save_session (.arr (turns ++
            [.obj [("user", .str user_input), ("bot", .str reply),
              ("timestamp", .str now)]])) now with
         | some content => some (reply, ⟨some kld.2, some content⟩)
         | none => none)
      | _ => none

/-- C7: when the utterance is non-empty, no knowledge sentence
qualifies, and the completion service raises, the chat route still
produces a reply, and that reply embeds the error description. -/
theorem chat_llm_error_reply (st : FileState) (e now msg : String)
    (knowledge : List String) (turns : List JVal)
    (h1 : ¬ pyStrip msg = "")
    (h2 : iterStrings (load_knowledge st.knowledgeFile).1 = some knowledge)
    (h3 : best_knowledge_match (pyStrip msg) knowledge = none)
    (h4 : load_session st.sessionFile = .arr turns)
    (h5 : ∀ t ∈ turns, isObjB t = true) :
    ∃ st2 : FileState,
      chat st (.error e) now msg = some ("⚠️ Model error: " ++ e, st2) := by
  have hobj : ∀ t ∈ turns ++
      [JVal.obj [("user", JVal.str (pyStrip msg)),
        ("bot", JVal.str ("⚠️ Model error: " ++ e)), ("timestamp", JVal.str now)]],
      isObjB t = true := by
    intro t ht
    rcases List.mem_append.mp ht with hmem | hmem
    · exact h5 t hmem
    · simp only [List.mem_singleton] at hmem
      rw [hmem]
      rfl
  have h6 := backfillList_obj now _ hobj
  refine ⟨⟨some (load_knowledge st.knowledgeFile).2,
    some (serializeJson (.arr ((turns ++
      [JVal.obj [("user", JVal.str (pyStrip msg)),
        ("bot", JVal.str ("⚠️ Model error: " ++ e)),
        ("timestamp", JVal.str now)]]).map (backfillTurn now))))⟩, ?_⟩
  simp only [chat, h1, if_false, h2, chat_reply, h3, fallbackText, h4,
    save_session, backfillAll, h6, Option.map_some']

/-- Witness for the C7 theorem at a concrete state and utterance. -/
theorem chat_llm_error_reply_witness :
    ∃ st2 : FileState,
      chat ⟨none, none⟩ (.error "boom") "T" "hello there friend" =
        some ("⚠️ Model error: " ++ "boom", st2) :=
  chat_llm_error_reply ⟨none, none⟩ "boom" "T" "hello there friend" [] []
    (by decide) rfl (by decide) rfl (by intro t ht; exact absurd ht (by simp))

/-- C8: an empty or whitespace-only message is answered with the canned
prompt and the persisted state is left untouched: the handler returns
before any file is read, created or written. -/
theorem chat_empty_message (st : FileState) (llm : Except String String)
    (now msg : String) (h : pyStrip msg = "") :
    chat st llm now msg = some ("Say something...", st) := by
  simp [chat, h]

/-- Witness for the C8 theorem at a whitespace-only message. -/
theorem chat_empty_message_witness :
    chat ⟨some "[1]", some "oops"⟩ (.error "x") "T" " \t " =
      some ("Say something...", ⟨some "[1]", some "oops"⟩) :=
  chat_empty_message ⟨some "[1]", some "oops"⟩ (.error "x") "T" " \t " (by decide)

/-- Split a list at its LAST occurrence of a character: the prefix
keeps the character at its end, the suffix is what follows; none when
the character does not occur. -/
def splitAtLastAux (c : Char) : List Char → Option (List Char × List Char)
  | [] => none
  | x :: xs =>
    match splitAtLastAux c xs with
    | some (b, a) => some (x :: b, a)
    | none => if x = c then some ([x], xs) else none

/-- Model of os.path.splitext as it runs on posix (the separator is the
slash, there is no alternative separator): the extension starts at the
last dot of the final path component, except that a component whose
characters before that dot are all dots has no extension; equivalently,
after stripping the component's leading dots, the last remaining dot
starts the extension. -/
def splitext (p : String) : String × String :=
  let cs := p.data
  let dir : List Char :=
    match splitAtLastAux '/' cs with
    | some (d, _) => d
    | none => []
  let base : List Char :=
    match splitAtLastAux '/' cs with
    | some (_, b) => b
    | none => cs
  let dots := base.takeWhile (fun c => c = '.')
  let stem := base.dropWhile (fun c => c = '.')
  match splitAtLastAux '.' stem with
  | some (b, a) => (String.mk (dir ++ dots ++ b.dropLast), String.mk ('.' :: a))
  | none => (p, "")

/-- Extension allow-list of the upload route (iaserver.py line 16); the
source holds these in a set, and only membership is ever used. -/
def ALLOWED_EXTENSIONS : List String := [".txt", ".py", ".pdf"]

/-- Model of the upload extension gate (iaserver.py lines 162-171,
given an uploaded file is present): the filename is lowercased first,
then its extension is tested against the allow-list; a disallowed
extension is rejected with HTTP status 403, otherwise the lowercased
filename is accepted for saving. -/
def upload_file (filename : String) : Except Nat String :=
  let fn := pyLower filename
  if memB (splitext fn).2 ALLOWED_EXTENSIONS then .ok fn else .error 403

theorem lowerChar_of_not_upper (c : Char) (h : ¬ (65 ≤ c.toNat ∧ c.toNat ≤ 90)) :
    lowerChar c = c := by
  unfold lowerChar
  rw [if_neg h]

theorem lowerChar_toNat_of_upper (c : Char) (h : 65 ≤ c.toNat ∧ c.toNat ≤ 90) :
    (lowerChar c).toNat = c.toNat + 32 := by
  unfold lowerChar
  rw [if_pos h]
  have hv : (c.toNat + 32).isValidChar := Or.inl (by omega)
  rw [Char.ofNat, dif_pos hv]
  simp [Char.ofNatAux, Char.toNat, UInt32.toNat, BitVec.toNat_ofNatLt]

theorem lowerChar_idem (c : Char) : lowerChar (lowerChar c) = lowerChar c := by
  by_cases h : 65 ≤ c.toNat ∧ c.toNat ≤ 90
  · have h2 := lowerChar_toNat_of_upper c h
    exact lowerChar_of_not_upper _ (by omega)
  · rw [lowerChar_of_not_upper c h]
    exact lowerChar_of_not_upper c h

theorem pyLower_idem (s : String) : pyLower (pyLower s) = pyLower s := by
  show String.mk ((String.mk (s.data.map lowerChar)).data.map lowerChar) =
    String.mk (s.data.map lowerChar)
  rw [show (String.mk (s.data.map lowerChar)).data = s.data.map lowerChar from rfl]
  rw [List.map_map]
  congr 1
  simp [Function.comp, lowerChar_idem]

/-- C9: the upload allow-list check is case-insensitive at the public
interface: the filename is lowercased before its extension is compared,
a 403 rejection happens exactly when the lowercased extension is not
allowed, an uppercase filename such as NOTES.TXT is accepted, and the
decision is invariant under lowercasing the filename. -/
theorem upload_extension_gate :
    (∀ filename : String,
      (upload_file filename = .error 403 ↔
        (splitext (pyLower filename)).2 ∉ ALLOWED_EXTENSIONS)) ∧
    upload_file "NOTES.TXT" = .ok "notes.txt" ∧
    (∀ filename : String, upload_file (pyLower filename) = upload_file filename) := by
  refine ⟨?_, rfl, ?_⟩
  · intro fn
    cases hmb : memB (splitext (pyLower fn)).2 ALLOWED_EXTENSIONS with
    | false =>
      constructor
      · intro _ hmem
        rw [(memB_iff_mem _ _).mpr hmem] at hmb
        exact Bool.noConfusion hmb
      · intro _
        simp only [upload_file, hmb]
        rfl
    | true =>
      constructor
      · intro hup
        simp only [upload_file, hmb, if_true] at hup
        exact Except.noConfusion hup
      · intro hmem
        exact absurd ((memB_iff_mem _ _).mp hmb) hmem
  · intro fn
    simp only [upload_file]
    rw [pyLower_idem]

/-- C10: archiving never writes the current session file: the file is
returned unchanged and re-loads identically, the backfilled timestamps
appear only in the archived copy, and an object turn that lacked a
timestamp in the current log gains one only in the archived value. -/
theorem archive_frame (sessionFile : Option String) (now stamp : String)
    (turns : List JVal)
    (h1 : load_session sessionFile = .arr turns)
    (h2 : ∀ t ∈ turns, isObjB t = true) :
    (save_session_timestamped sessionFile now stamp).2 = sessionFile ∧
    load_session (save_session_timestamped sessionFile now stamp).2 = .arr turns ∧
    (save_session_timestamped sessionFile now stamp).1 =
      some ("sessions/session_" ++ stamp ++ ".json",
        serializeJson (.arr (turns.map (backfillTurn now)))) ∧
    (∀ i, ∀ hi : i < turns.length, ∀ kvs,
      turns.get ⟨i, hi⟩ = JVal.obj kvs →
      kvs.any (fun kv => kv.1 = "timestamp") = false →
      (turns.map (backfillTurn now)).get ⟨i, by simpa using hi⟩ =
        JVal.obj (kvs ++ [("timestamp", JVal.str now)])) := by
  have hback := backfillList_obj now turns h2
  have hfold : save_session_timestamped sessionFile now stamp =
      (some ("sessions/session_" ++ stamp ++ ".json",
        serializeJson (.arr (turns.map (backfillTurn now)))), sessionFile) := by
    simp only [save_session_timestamped, h1, backfillAll, hback, Option.map_some']
  refine ⟨by rw [hfold], by rw [hfold]; exact h1, by rw [hfold], ?_⟩
  intro i hi kvs ht hno
  have hmap : (turns.map (backfillTurn now)).get ⟨i, by simpa using hi⟩ =
      backfillTurn now (turns.get ⟨i, hi⟩) := by
    simp [List.get_eq_getElem, List.getElem_map]
  rw [hmap, ht]
  simp [backfillTurn, hno]

/-- Witness for the C10 theorem at a concrete session log holding one
turn object that lacks a timestamp. -/
theorem archive_frame_witness :
    (save_session_timestamped (some "[\x7b\"user\": \"hi\"\x7d]") "T" "20250101_000000").2 =
      some "[\x7b\"user\": \"hi\"\x7d]" ∧
    (save_session_timestamped (some "[\x7b\"user\": \"hi\"\x7d]") "T" "20250101_000000").1 =
      some ("sessions/session_20250101_000000.json",
        serializeJson (.arr ([JVal.obj [("user", JVal.str "hi")]].map
          (backfillTurn "T")))) :=
  ⟨(archive_frame (some "[\x7b\"user\": \"hi\"\x7d]") "T" "20250101_000000"
      [JVal.obj [("user", JVal.str "hi")]] rfl
      (by intro t ht; simp only [List.mem_singleton] at ht; rw [ht]; rfl)).1,
   (archive_frame (some "[\x7b\"user\": \"hi\"\x7d]") "T" "20250101_000000"
      [JVal.obj [("user", JVal.str "hi")]] rfl
      (by intro t ht; simp only [List.mem_singleton] at ht; rw [ht]; rfl)).2.2.1⟩

end ChatIA
